import Mathlib

/-!
Verification of `mud` (module dependency descriptor generator, `mud.go`)
against its natural-language specification.

The development shallow-embeds the data model and operations of `mud.go`:
the module registry built by the package walk, the per-package visit logic,
the dependency-set operations, and the deterministic descriptor emission
loop.  Go strings are Lean `String`s; Go maps are association lists whose
iteration order is treated as adversarial (arbitrary permutation); Go
panics / `os.Exit(1)` are the `Except.error` branch.
-/

set_option maxRecDepth 4000

namespace Mud

/-- `type Path string` from `mud.go`. Total order = lexicographic byte order;
for ASCII data Lean's `String` order coincides with Go's byte order. -/
abbrev Path := String

/-- `sortPaths` from `mud.go`: sorts ascending by `<`.  Go uses an unstable
sort, but over `String` the order `≤` is antisymmetric, so every correct
ascending sort produces the same list; we embed it as insertion sort. -/
def sortPaths (xs : List Path) : List Path :=
  xs.insertionSort (· ≤ ·)

theorem sortPaths_sorted (xs : List Path) :
    (sortPaths xs).Sorted (· ≤ ·) :=
  List.sorted_insertionSort _ xs

theorem sortPaths_perm (xs : List Path) : List.Perm (sortPaths xs) xs :=
  List.perm_insertionSort _ xs

/-- Permutation-invariance of the output sort: any two iteration orders of
the same multiset of paths sort to the byte-identical list. -/
theorem sortPaths_eq_of_perm {xs ys : List Path} (h : List.Perm xs ys) :
    sortPaths xs = sortPaths ys :=
  List.eq_of_perm_of_sorted
    ((sortPaths_perm xs).trans (h.trans (sortPaths_perm ys).symm))
    (sortPaths_sorted xs) (sortPaths_sorted ys)

/-- `isBuiltin` from `mud.go`: take the part of the import path before the
first slash byte (`strings.IndexByte(importPath, '/')`, slicing when found),
and classify as builtin when that part has no dot byte
(`strings.IndexByte(importPath, '.') == -1`). -/
def isBuiltin (importPath : String) : Bool :=
  let cs := importPath.toList
  let seg := match cs.findIdx? (fun c => c = '/') with
    | some i => cs.take i
    | none => cs
  (seg.findIdx? (fun c => c = '.')).isNone

/-- The spec's phrasing of the first segment: the prefix of the path up to
the first `/` separator, the whole path when no separator exists. -/
def specFirstSegment (importPath : String) : List Char :=
  importPath.toList.takeWhile (fun c => c ≠ '/')

theorem take_findIdx_eq_takeWhile (p : Char → Bool) (cs : List Char) :
    (match cs.findIdx? (fun c => p c) with
      | some i => cs.take i
      | none => cs) = cs.takeWhile (fun c => !(p c)) := by
  induction cs with
  | nil => rfl
  | cons c cs ih =>
    by_cases hc : p c
    · simp [List.findIdx?_cons, hc, List.takeWhile_cons]
    · simp only [List.findIdx?_cons, hc, cond_false, List.takeWhile_cons,
        Bool.not_false, if_pos trivial]
      cases hfi : cs.findIdx? (fun c => p c) with
      | none => simpa [hfi] using ih
      | some i => simpa [hfi] using congrArg (c :: ·) (by simpa [hfi] using ih)

theorem findIdx_isNone_iff_not_mem (c₀ : Char) (cs : List Char) :
    (cs.findIdx? (fun c => c = c₀)).isNone = true ↔ c₀ ∉ cs := by
  rw [Option.isNone_iff_eq_none, List.findIdx?_eq_none_iff]
  constructor
  · intro h hmem
    have := h c₀ hmem
    simp at this
  · intro h x hx
    simp only [decide_eq_false_iff_not]
    intro hxc
    exact h (hxc ▸ hx)

/-- Claim C6: the builtin classifier returns `true` iff the prefix of the
path up to the first `/` separator (the whole path when no separator
exists) contains no `.` character. -/
theorem isBuiltin_iff_no_dot_in_first_segment (p : String) :
    isBuiltin p = true ↔ '.' ∉ specFirstSegment p := by
  unfold isBuiltin specFirstSegment
  have hfn : (fun c : Char => decide (c ≠ '/')) = (fun c => !(decide (c = '/'))) := by
    funext c
    simp [decide_not]
  rw [hfn, ← take_findIdx_eq_takeWhile (fun c => decide (c = '/')) p.toList]
  exact findIdx_isNone_iff_not_mem '.' _

theorem isBuiltin_iff_no_dot_in_first_segment_witness :
    isBuiltin "fmt" = true ∧ isBuiltin "golang.org/x/tools" = false :=
  ⟨(isBuiltin_iff_no_dot_in_first_segment "fmt").mpr (by decide), by decide⟩

/-- Go `strings.HasPrefix(s, pre)`. -/
def goStartsWith (s pre : String) : Bool :=
  pre.toList.isPrefixOf s.toList

/-- Go `strings.HasSuffix(s, suf)`. -/
def goEndsWith (s suf : String) : Bool :=
  suf.toList.isSuffixOf s.toList

/-- Go `strings.TrimPrefix`: drop `pre` when `s` starts with it, else `s`. -/
def trimPre (pre s : String) : String :=
  if goStartsWith s pre then ⟨s.toList.drop pre.toList.length⟩ else s

/-- Go `strings.Join(parts, sep)`. -/
def goJoin (sep : String) : List String → String
  | [] => ""
  | [s] => s
  | s :: rest => s ++ sep ++ goJoin sep rest

/-- Go `strings.Split(s, sep)` for a one-character separator: cut around
every occurrence, preserving empty fields (`Split("", sep) = [""]`). -/
def goSplitChars (sep : Char) : List Char → List (List Char)
  | [] => [[]]
  | c :: rest =>
    if c == sep then [] :: goSplitChars sep rest
    else
      match goSplitChars sep rest with
      | [] => [[c]]
      | s :: ss => (c :: s) :: ss

def goSplit (s : String) (sep : Char) : List String :=
  (goSplitChars sep s.toList).map List.asString

/-- The part of `packages.Module` (and of its `Replace` target) that
`mud.go` reads: `Path`, `Version`, `Dir`, `Replace.Path`, `Replace.Version`. -/
structure ReplaceRec where
  path : String
  version : String
  deriving DecidableEq

structure GoModuleRec where
  path : Path
  version : String
  dir : String
  replace : Option ReplaceRec
  deriving DecidableEq

/-- One entry of `pkg.Imports` as read by the dependency loop:
`dep.PkgPath` and the `dep.Module` pointer (`none` = nil). -/
structure ImportRec where
  pkgPath : String
  module : Option GoModuleRec
  deriving DecidableEq

/-- The fields of `packages.Package` that the main walk reads.  `errors`
models the aggregated package/module error list of `pkgErrors`. -/
structure GoPackage where
  name : String
  pkgPath : String
  module : Option GoModuleRec
  imports : List ImportRec
  errors : List String
  deriving DecidableEq

deriving instance DecidableEq for Except

/-- `type Module struct` from `mud.go`.  `Deps map[*Module]PackageSet` is
embedded as an association list keyed by the dep module's registry identity
(its `Path`): the registry holds exactly one `*Module` per path, so pointer
keys and path keys coincide.  Each `PackageSet` is the list of its keys in
insertion order (map iteration order is handled where the sets are read). -/
structure Module where
  path : Path
  version : String
  dir : String
  replacePath : String
  deps : List (Path × List Path)
  deriving DecidableEq

/-- `PackageSet.Add` (`s[p] = struct{}{}`): a map insert, the key set gains
`p` once; inserting a present key leaves the map unchanged. -/
def PackageSet.Add (s : List Path) (p : Path) : List Path :=
  if s.contains p then s else s ++ [p]

/-- `Module.Dep` followed by `PackageSet.Add`: get-or-create the dep set
under key `k`, then insert `pkg` into it. -/
def depsAdd : List (Path × List Path) → Path → Path → List (Path × List Path)
  | [], k, pkg => [(k, PackageSet.Add [] pkg)]
  | (k', s) :: rest, k, pkg =>
    if k' = k then (k', PackageSet.Add s pkg) :: rest
    else (k', s) :: depsAdd rest k pkg

/-- `Module.Imports` from `mud.go`: collect every package path of every dep
set (Go map iteration supplies them in some arbitrary order, reflected in
the list orders of `deps`), then `sortPaths` the result. -/
def Module.Imports (m : Module) : List Path :=
  sortPaths ((m.deps.map Prod.snd).flatten)

/-- `Module.IsExternal`: everything outside the workspace's own
`example.com/` namespace. -/
def Module.IsExternal (m : Module) : Bool :=
  !(goStartsWith m.path "example.com/")

/-- `mud.go` lines 119–131: build a fresh `Module` record from the loader's
module record — version/dir copied, replace directive substituting the
replace path and version, then the leading `"v"` stripped from the version. -/
def mkModule (gm : GoModuleRec) : Module :=
  let m : Module := ⟨gm.path, gm.version, gm.dir, "", []⟩
  let m : Module := match gm.replace with
    | some r => { m with replacePath := r.path, version := r.version }
    | none => m
  { m with version := trimPre "v" m.version }

/-- The registry `modules map[Path]*Module`, embedded as the list of its
entries in insertion order. -/
abbrev Registry := List Module

/-- `modules[p]`: map lookup, `none` models the nil pointer. -/
def regLookup (reg : Registry) (p : Path) : Option Module :=
  reg.find? (fun m => m.path == p)

/-- Writing back through the `*Module` pointer held in the registry. -/
def regUpdate (reg : Registry) (m : Module) : Registry :=
  reg.map (fun x => if x.path = m.path then m else x)

/-- Go's runtime panic message for a nil pointer dereference. -/
def nilDeref : String := "runtime error: invalid memory address or nil pointer dereference"

/-- The dependency-collection loop (`mud.go` lines 135–147) over one
package's imports: skip builtins, dereference `dep.Module` (nil panics),
look the dep module up in the registry (`depMod.Path` on a missing entry
panics), skip intra-module edges, otherwise add the imported package path
to the set between importer and imported. -/
def visitDeps (reg : Registry) (mod : Module) : List ImportRec → Except String Module
  | [] => .ok mod
  | dep :: rest =>
    if isBuiltin dep.pkgPath then visitDeps reg mod rest
    else match dep.module with
      | none => .error nilDeref
      | some dgm =>
        match regLookup reg dgm.path with
        | none => .error nilDeref
        | some depMod =>
          if depMod.path = mod.path then visitDeps reg mod rest
          else visitDeps reg { mod with deps := depsAdd mod.deps depMod.path dep.pkgPath } rest

/-- The per-package body of the main walk (`mud.go` lines 96–148): skip
builtins, abort on aggregated package errors, handle module-less packages
(skip the two synthetic test shapes, panic otherwise), lazily create the
owning `Module` record, then run the dependency loop and store its result
through the registry pointer. -/
def visitOne (reg : Registry) (pkg : GoPackage) : Except String Registry :=
  if isBuiltin pkg.pkgPath then .ok reg
  else if pkg.errors ≠ [] then .error (goJoin "; " pkg.errors)
  else match pkg.module with
  | none =>
    if pkg.name == "main" && goEndsWith pkg.pkgPath ".test" then .ok reg
    else if goEndsWith pkg.pkgPath "_test" then .ok reg
    else .error ("package without a module: " ++ pkg.pkgPath)
  | some gm =>
    let (reg', mod) := match regLookup reg gm.path with
      | some m => (reg, m)
      | none => (reg ++ [mkModule gm], mkModule gm)
    match visitDeps reg' mod pkg.imports with
    | .error e => .error e
    | .ok mod' => .ok (regUpdate reg' mod')

/-- The whole post-order walk: `packages.Visit` fires the per-package body
once per reachable package, in traversal order `pkgs`. -/
def walk (reg : Registry) : List GoPackage → Except String Registry
  | [] => .ok reg
  | p :: rest =>
    match visitOne reg p with
    | .error e => .error e
    | .ok reg' => walk reg' rest

/-- The character class `[a-zA-Z_]` opening `nixIdentRe`. -/
def nixIdentStartOK (c : Char) : Bool :=
  ('a' ≤ c && c ≤ 'z') || ('A' ≤ c && c ≤ 'Z') || c = '_'

/-- The character class `[a-zA-Z0-9_'-]` for the remaining characters of
`nixIdentRe` (the apostrophe is `Char.ofNat 39`). -/
def nixIdentRestOK (c : Char) : Bool :=
  nixIdentStartOK c || ('0' ≤ c && c ≤ '9') || c = Char.ofNat 39 || c = '-'

/-- `nixIdentRe.MatchString`: the anchored regular expression
`^[a-zA-Z_][a-zA-Z0-9_'-]*$` holds exactly of a non-empty string whose
first character is in the start class and whose remaining characters are
in the rest class; we embed the regexp by that meaning. -/
def nixIdentMatch (s : String) : Bool :=
  match s.toList with
  | [] => false
  | c :: cs => nixIdentStartOK c && cs.all nixIdentRestOK

/-- `nixKeyword` from `mud.go`: the reserved words of the output language. -/
def nixKeyword (s : String) : Bool :=
  ["if", "then", "else", "assert", "with", "let", "in", "rec", "inherit", "or"].contains s

/-- `fmt.Sprintf("%q", name)` (Go `strconv.Quote`) restricted to the
printable-ASCII strings that path segments are: wrap in double quotes,
escaping the backslash and the double quote. -/
def goQuote (s : String) : String :=
  "\"" ++ String.join (s.toList.map (fun c =>
    if c = '"' then "\\\"" else if c = '\\' then "\\\\" else String.singleton c)) ++ "\""

/-- `Path.NixAttr` from `mud.go`: split on `/`; every segment that fails
the identifier regexp or is a keyword is replaced by its quoted form; join
the segments with `.`. -/
def Path.NixAttr (p : Path) : String :=
  let names := goSplit p '/'
  let names := names.map (fun name =>
    if !(nixIdentMatch name) || nixKeyword name then goQuote name else name)
  goJoin "." names

/-- `Module.ModSHA256`: panic when the module has no source directory,
otherwise hash the directory.  The external archive-serialize-and-digest
pipeline (`archive.CopyPath` into `sha256` into `base32.Encode`) is the
parameter `hash`, a fixed pure function of the directory for one run. -/
def Module.ModSHA256 (hash : String → String) (m : Module) : Except String String :=
  if m.dir = "" then .error ("module without a dir: " ++ m.path)
  else .ok (hash m.dir)

/-- The descriptor template of `mud.go` (`tmpl`), rendered for a module:
header and fetch block always, the `deps` block only when `Imports` is
non-empty, exactly as the `{{- with .Imports}}` / `{{- range .}}` actions
with their whitespace trimming lay the text out. -/
def renderModule (sha : String) (m : Module) : String :=
  "# generator //tools/mud (DO NOT EDIT)\n\x7b platform, pkgs, ... \x7d:\n\nplatform.buildGo.external rec \x7b\n  path = \"" ++ m.path
  ++ "\";\n  src = platform.lib.fetchGoModule \x7b\n    inherit path;\n    version = \""
  ++ m.version ++ "\";\n    sha256 = \"" ++ sha ++ "\";\n  \x7d;"
  ++ (if m.Imports.isEmpty then ""
      else "\n  deps = with platform.third_party; ["
        ++ String.join (m.Imports.map (fun i => "\n    gopkgs." ++ Path.NixAttr i))
        ++ "\n  ];")
  ++ "\n\x7d\n"

/-- One iteration of the output loop (`mud.go` lines 158–186) for the
module found at the current sorted path: skip non-external modules; for a
local (`.`-leading) replace path, abort unless it equals the conventional
`./third_party/gopkgs/<path>` location and emit nothing when it does;
otherwise render the descriptor (which may abort inside `ModSHA256`) and
produce the write of `default.nix` under the out directory. -/
def emitStep (hash : String → String) (m : Module) :
    Except String (Option (String × String)) :=
  if !(m.IsExternal) then .ok none
  else
    let outDir := "third_party/gopkgs/" ++ m.path
    if (m.replacePath != "") && (m.replacePath.toList.head? == some '.') then
      if m.replacePath != "./" ++ outDir then
        .error ("replace points at //" ++ m.replacePath ++ ", expected it to point at //" ++ outDir ++ "\n")
      else .ok none
    else
      match m.ModSHA256 hash with
      | .error e => .error e
      | .ok sha => .ok (some (outDir ++ "/default.nix", renderModule sha m))

/-- The output loop's iteration over the sorted key list, looking each path
up in the registry (a key yielded by map iteration is always present; a
missing one would be a nil dereference). -/
def emitLoop (hash : String → String) (reg : Registry) : List Path → Except String (List (String × String))
  | [] => .ok []
  | p :: rest =>
    match regLookup reg p with
    | none => .error nilDeref
    | some m =>
      match emitStep hash m with
      | .error e => .error e
      | .ok none => emitLoop hash reg rest
      | .ok (some out) =>
        match emitLoop hash reg rest with
        | .error e => .error e
        | .ok outs => .ok (out :: outs)

/-- The whole output phase (`mud.go` lines 151–187): gather the registry's
keys in map-iteration order, `sortPaths` them, and run the emission loop;
the result is the sequence of `(file path, file bytes)` writes. -/
def emitAll (hash : String → String) (reg : Registry) : Except String (List (String × String)) :=
  emitLoop hash reg (sortPaths (reg.map Module.path))

/-! ## Claim theorems -/

/-- Claim C9: requesting a module's content hash fails fatally, with a
diagnostic naming the module, when its source directory is empty — the
digest function is never consulted there — and the digest is computed
exactly for modules with a non-empty source directory. -/
theorem modSHA256_requires_dir (hash : String → String) (m : Module) :
    (m.dir = "" → m.ModSHA256 hash = .error ("module without a dir: " ++ m.path))
    ∧ (m.dir ≠ "" → m.ModSHA256 hash = .ok (hash m.dir)) := by
  constructor
  · intro h
    simp [Module.ModSHA256, h]
  · intro h
    simp [Module.ModSHA256, h]

theorem modSHA256_requires_dir_witness :
    Module.ModSHA256 (fun _ => "digest") ⟨"m.example", "1.0", "", "", []⟩
      = .error ("module without a dir: " ++ "m.example") :=
  (modSHA256_requires_dir (fun _ => "digest") ⟨"m.example", "1.0", "", "", []⟩).1 rfl

/-- Claim C5: for an external module whose replace path is local (leading
`.`), a replace path differing from the conventional
`./third_party/gopkgs/<path>` location aborts the run with a diagnostic
and no descriptor, while the matching conventional path yields no
descriptor and no error (the loop just continues). -/
theorem emitStep_local_replace (hash : String → String) (m : Module)
    (hext : m.IsExternal = true)
    (hne : m.replacePath ≠ "") (hdot : m.replacePath.toList.head? = some '.') :
    (m.replacePath ≠ "./" ++ ("third_party/gopkgs/" ++ m.path) →
      emitStep hash m = .error ("replace points at //" ++ m.replacePath
        ++ ", expected it to point at //" ++ ("third_party/gopkgs/" ++ m.path) ++ "\n"))
    ∧ (m.replacePath = "./" ++ ("third_party/gopkgs/" ++ m.path) →
      emitStep hash m = .ok none) := by
  have h1 : (m.replacePath != "") = true := by simpa using hne
  have hdot' : m.replacePath.data.head? = some '.' := hdot
  constructor
  · intro hmis
    have h3 : (m.replacePath != "./" ++ ("third_party/gopkgs/" ++ m.path)) = true := by
      simpa using hmis
    simp [emitStep, hext, h1, hdot', h3]
  · intro hmatch
    have h3 : (m.replacePath != "./" ++ ("third_party/gopkgs/" ++ m.path)) = false := by
      simpa using hmatch
    simp [emitStep, hext, h1, hdot', h3]

theorem emitStep_local_replace_witness :
    emitStep (fun _ => "digest")
        ⟨"alpha.example/foo", "1.0", "/d", "./third_party/gopkgs/alpha.example/foo", []⟩
      = .ok none
    ∧ emitStep (fun _ => "digest")
        ⟨"alpha.example/foo", "1.0", "/d", "./elsewhere", []⟩
      = .error ("replace points at //" ++ "./elsewhere"
          ++ ", expected it to point at //" ++ ("third_party/gopkgs/" ++ "alpha.example/foo") ++ "\n") :=
  ⟨(emitStep_local_replace (fun _ => "digest")
        ⟨"alpha.example/foo", "1.0", "/d", "./third_party/gopkgs/alpha.example/foo", []⟩
        (by decide) (by decide) (by decide)).2 (by decide),
   (emitStep_local_replace (fun _ => "digest")
        ⟨"alpha.example/foo", "1.0", "/d", "./elsewhere", []⟩
        (by decide) (by decide) (by decide)).1 (by decide)⟩

/-- Claim C7: a rendered path is its `/`-segments joined with `.`, each
segment rendered bare exactly when it matches the bare-identifier grammar
(one start-class character followed by rest-class characters) and is not a
reserved keyword, and quoted otherwise; the segment `1bad` in particular
is rendered quoted. -/
theorem nixAttr_segment_rendering :
    (∀ s : String, nixIdentMatch s = true ↔
      ∃ c cs, s.toList = c :: cs ∧ nixIdentStartOK c = true
        ∧ ∀ x ∈ cs, nixIdentRestOK x = true)
    ∧ (∀ p : Path, Path.NixAttr p = goJoin "."
        ((goSplit p '/').map (fun n =>
          if nixIdentMatch n && !(nixKeyword n) then n else goQuote n)))
    ∧ Path.NixAttr "x/1bad" = "x.\"1bad\"" := by
  refine ⟨?_, ?_, by decide⟩
  · intro s
    cases h : s.toList with
    | nil =>
      rw [show nixIdentMatch s = false from by unfold nixIdentMatch; rw [h]]
      simp
    | cons c cs =>
      rw [show nixIdentMatch s = (nixIdentStartOK c && cs.all nixIdentRestOK) from by
            unfold nixIdentMatch; rw [h]]
      simp only [Bool.and_eq_true, List.all_eq_true]
      constructor
      · rintro ⟨h₁, h₂⟩
        exact ⟨c, cs, rfl, h₁, h₂⟩
      · rintro ⟨c', cs', he, h₁, h₂⟩
        cases he
        exact ⟨h₁, h₂⟩
  · intro p
    show goJoin "." _ = goJoin "." _
    congr 1
    apply List.map_congr_left
    intro n _
    cases hb : nixIdentMatch n <;> cases hk : nixKeyword n <;> simp [hb, hk]

theorem nixAttr_segment_rendering_witness :
    nixIdentMatch "1bad" = false ∧ Path.NixAttr "x/1bad" = "x.\"1bad\"" :=
  ⟨by decide, nixAttr_segment_rendering.2.2⟩

/-- Claim C3 as stated is false: a module-less package whose import path
ends in `.test` is silently skipped only when its package name is `main`;
with any other name the walk aborts.  Concrete failing input: a module-less
package named `x` at import path `whatever.test`. -/
theorem moduleless_test_suffix_counterexample :
    ¬ (∀ (reg : Registry) (pkg : GoPackage), pkg.errors = [] → pkg.module = none →
        (goEndsWith pkg.pkgPath ".test" || goEndsWith pkg.pkgPath "_test") = true →
        visitOne reg pkg = .ok reg) := by
  intro h
  have hx := h [] ⟨"x", "whatever.test", none, [], []⟩ rfl rfl (by decide)
  rw [show visitOne [] ⟨"x", "whatever.test", none, [], []⟩
        = .error ("package without a module: " ++ "whatever.test") from by decide] at hx
  exact absurd hx (by simp)

/-- Claim C3, amended: for a package visited by the main walk (non-builtin,
no aggregated errors) whose module pointer is absent, the walk silently
skips it exactly when it is a synthetic test binary (package name `main`
and import path ending in `.test`) or a test-augmentation package (import
path ending in `_test`); any other module-less package aborts the run with
a fatal error naming the package path. -/
theorem moduleless_package_handling (reg : Registry) (pkg : GoPackage)
    (hb : isBuiltin pkg.pkgPath = false) (he : pkg.errors = [])
    (hm : pkg.module = none) :
    visitOne reg pkg =
      if (pkg.name == "main" && goEndsWith pkg.pkgPath ".test")
          || goEndsWith pkg.pkgPath "_test"
      then .ok reg
      else .error ("package without a module: " ++ pkg.pkgPath) := by
  unfold visitOne
  rw [hb, hm, he]
  simp only [Bool.false_eq_true, if_false, ne_eq, not_true_eq_false]
  cases h1 : pkg.name == "main" && goEndsWith pkg.pkgPath ".test" with
  | true => simp [h1]
  | false =>
    cases h2 : goEndsWith pkg.pkgPath "_test" with
    | true => simp [h1, h2]
    | false => simp [h1, h2]

theorem moduleless_package_handling_witness :
    visitOne [] ⟨"main", "whatever.test", none, [], []⟩ = .ok [] := by
  have h := moduleless_package_handling [] ⟨"main", "whatever.test", none, [], []⟩
    (by decide) rfl rfl
  rw [h]
  decide

/-- Claim C4 as stated is false: the walk stores a non-empty `replacePath`
for every replace directive, including one that redirects to another
module path rather than a local path.  Concrete failing input: a module
record replaced by `other.example/fork`. -/
theorem replace_local_only_counterexample :
    ¬ (∀ gm : GoModuleRec, (mkModule gm).replacePath ≠ "" →
        (mkModule gm).replacePath.toList.head? = some '.') := by
  intro h
  have hx := h ⟨"m.example", "v1.0.0", "/d", some ⟨"other.example/fork", "v2.0.0"⟩⟩
    (by decide)
  exact absurd hx (by decide)

/-- Claim C4, amended: a created Module record's `replacePath` is empty
when no replace directive is present and equals the directive's target
path (local or not) when one is; with a replace directive the stored
version is the replacement's version with a leading `v` stripped (without
one, the module's own version so stripped); the stored source directory is
always the loader-reported module directory. -/
theorem mkModule_replace_fields (gm : GoModuleRec) :
    ((gm.replace = none →
        (mkModule gm).replacePath = "" ∧ (mkModule gm).version = trimPre "v" gm.version)
      ∧ (∀ r, gm.replace = some r →
        (mkModule gm).replacePath = r.path ∧ (mkModule gm).version = trimPre "v" r.version))
    ∧ (mkModule gm).dir = gm.dir ∧ (mkModule gm).path = gm.path
    ∧ (mkModule gm).deps = [] := by
  constructor
  · constructor
    · intro hn
      constructor <;> simp [mkModule, hn]
    · intro r hrr
      constructor <;> simp [mkModule, hrr]
  · refine ⟨?_, ?_, ?_⟩ <;> cases hr : gm.replace <;> simp [mkModule, hr]

theorem mkModule_replace_fields_witness :
    (mkModule ⟨"m.example", "v1.0.0", "/d", some ⟨"./third_party/gopkgs/m.example", "v2.0.0"⟩⟩).replacePath
      = "./third_party/gopkgs/m.example"
    ∧ (mkModule ⟨"m.example", "v1.0.0", "/d", some ⟨"./third_party/gopkgs/m.example", "v2.0.0"⟩⟩).version
      = trimPre "v" "v2.0.0" :=
  (mkModule_replace_fields ⟨"m.example", "v1.0.0", "/d",
      some ⟨"./third_party/gopkgs/m.example", "v2.0.0"⟩⟩).1.2
    ⟨"./third_party/gopkgs/m.example", "v2.0.0"⟩ rfl

/-- No module in the registry has itself as a key of its dependency map. -/
def NoSelfEdge (reg : Registry) : Prop :=
  ∀ m ∈ reg, m.path ∉ m.deps.map Prod.fst

theorem depsAdd_keys_subset (d : List (Path × List Path)) (k pkg : Path) :
    ∀ x ∈ (depsAdd d k pkg).map Prod.fst, x ∈ d.map Prod.fst ∨ x = k := by
  induction d with
  | nil =>
    intro x hx
    simp [depsAdd] at hx
    exact .inr hx
  | cons e rest ih =>
    intro x hx
    obtain ⟨k', s⟩ := e
    by_cases h : k' = k
    · simp only [depsAdd, if_pos h, List.map_cons, List.mem_cons] at hx
      rcases hx with h1 | h2
      · exact .inl (by simp [h1])
      · exact .inl (by simp [h2])
    · simp only [depsAdd, if_neg h, List.map_cons, List.mem_cons] at hx
      rcases hx with h1 | h2
      · exact .inl (by simp [h1])
      · rcases ih x h2 with h3 | h3
        · exact .inl (by simp [h3])
        · exact .inr h3

theorem visitDeps_ok_shape (reg : Registry) (imps : List ImportRec) :
    ∀ (mod mod' : Module), visitDeps reg mod imps = .ok mod' →
      mod'.path = mod.path ∧
      ∀ x ∈ mod'.deps.map Prod.fst, x ∈ mod.deps.map Prod.fst ∨ x ≠ mod.path := by
  induction imps with
  | nil =>
    intro mod mod' h
    cases h
    exact ⟨rfl, fun x hx => .inl hx⟩
  | cons dep rest ih =>
    intro mod mod' h
    unfold visitDeps at h
    by_cases hb : isBuiltin dep.pkgPath
    · rw [if_pos hb] at h
      exact ih mod mod' h
    · rw [if_neg hb] at h
      cases hdm : dep.module with
      | none => rw [hdm] at h; cases h
      | some dgm =>
        rw [hdm] at h
        dsimp only at h
        cases hlk : regLookup reg dgm.path with
        | none => rw [hlk] at h; cases h
        | some depMod =>
          rw [hlk] at h
          dsimp only at h
          by_cases heq : depMod.path = mod.path
          · rw [if_pos heq] at h
            exact ih mod mod' h
          · rw [if_neg heq] at h
            obtain ⟨hp, hk⟩ := ih _ mod' h
            refine ⟨hp, fun x hx => ?_⟩
            rcases hk x hx with h1 | h1
            · rcases depsAdd_keys_subset mod.deps depMod.path dep.pkgPath x h1 with h2 | h2
              · exact .inl h2
              · exact .inr (h2 ▸ heq)
            · exact .inr h1

theorem noSelfEdge_regUpdate {reg : Registry} {m : Module}
    (hreg : NoSelfEdge reg) (hm : m.path ∉ m.deps.map Prod.fst) :
    NoSelfEdge (regUpdate reg m) := by
  intro x hx
  simp only [regUpdate, List.mem_map] at hx
  obtain ⟨y, hy, hxy⟩ := hx
  by_cases h : y.path = m.path
  · rw [if_pos h] at hxy
    exact hxy ▸ hm
  · rw [if_neg h] at hxy
    exact hxy ▸ hreg y hy

theorem noSelfEdge_append_new {reg : Registry} (gm : GoModuleRec)
    (hreg : NoSelfEdge reg) : NoSelfEdge (reg ++ [mkModule gm]) := by
  intro x hx
  rcases List.mem_append.mp hx with h | h
  · exact hreg x h
  · rcases List.mem_singleton.mp h with rfl
    have : (mkModule gm).deps = [] := by
      cases hr : gm.replace <;> simp [mkModule, hr]
    simp [this]

theorem visitOne_preserves_noSelfEdge (reg : Registry) (pkg : GoPackage)
    (reg' : Registry) (h : NoSelfEdge reg) (hv : visitOne reg pkg = .ok reg') :
    NoSelfEdge reg' := by
  unfold visitOne at hv
  by_cases hb : isBuiltin pkg.pkgPath
  · rw [if_pos hb] at hv
    cases hv
    exact h
  · rw [if_neg hb] at hv
    by_cases he : pkg.errors ≠ []
    · rw [if_pos he] at hv
      cases hv
    · rw [if_neg he] at hv
      cases hm : pkg.module with
      | none =>
        rw [hm] at hv
        by_cases h1 : (pkg.name == "main" && goEndsWith pkg.pkgPath ".test") = true
        · rw [if_pos h1] at hv
          cases hv
          exact h
        · rw [if_neg h1] at hv
          by_cases h2 : goEndsWith pkg.pkgPath "_test" = true
          · rw [if_pos h2] at hv
            cases hv
            exact h
          · rw [if_neg h2] at hv
            cases hv
      | some gm =>
        rw [hm] at hv
        dsimp only at hv
        cases hlk : regLookup reg gm.path with
        | some m0 =>
          rw [hlk] at hv
          dsimp only at hv
          cases hvd : visitDeps reg m0 pkg.imports with
          | error e => rw [hvd] at hv; cases hv
          | ok mod' =>
            rw [hvd] at hv
            cases hv
            obtain ⟨hp, hk⟩ := visitDeps_ok_shape reg pkg.imports m0 mod' hvd
            have hm0 : m0 ∈ reg := List.mem_of_find?_eq_some hlk
            refine noSelfEdge_regUpdate h (fun hx => ?_)
            rcases hk mod'.path hx with h1 | h1
            · exact h m0 hm0 (hp ▸ h1)
            · exact h1 hp
        | none =>
          rw [hlk] at hv
          dsimp only at hv
          have hreg2 : NoSelfEdge (reg ++ [mkModule gm]) := noSelfEdge_append_new gm h
          cases hvd : visitDeps (reg ++ [mkModule gm]) (mkModule gm) pkg.imports with
          | error e => rw [hvd] at hv; cases hv
          | ok mod' =>
            rw [hvd] at hv
            cases hv
            obtain ⟨hp, hk⟩ := visitDeps_ok_shape _ pkg.imports _ mod' hvd
            have hdeps0 : (mkModule gm).deps = [] := by
              cases hr : gm.replace <;> simp [mkModule, hr]
            refine noSelfEdge_regUpdate hreg2 (fun hx => ?_)
            rcases hk mod'.path hx with h1 | h1
            · rw [hdeps0] at h1
              simp at h1
            · exact h1 hp

theorem walk_preserves_noSelfEdge (pkgs : List GoPackage) :
    ∀ (reg reg' : Registry), NoSelfEdge reg → walk reg pkgs = .ok reg' →
      NoSelfEdge reg' := by
  induction pkgs with
  | nil =>
    intro reg reg' h hw
    cases hw
    exact h
  | cons p rest ih =>
    intro reg reg' h hw
    unfold walk at hw
    cases hv : visitOne reg p with
    | error e => rw [hv] at hw; cases hw
    | ok reg₂ =>
      rw [hv] at hw
      exact ih reg₂ reg' (visitOne_preserves_noSelfEdge reg p reg₂ h hv) hw

/-- Claim C2: at every point of the walk no module has a self-edge — each
per-package visit preserves the no-self-edge invariant (intra-module
imports are discarded before any edge is added), so every registry a
complete walk produces satisfies it. -/
theorem no_self_edges :
    (∀ (reg : Registry) (pkg : GoPackage) (reg' : Registry),
        NoSelfEdge reg → visitOne reg pkg = .ok reg' → NoSelfEdge reg')
    ∧ (∀ (pkgs : List GoPackage) (reg : Registry),
        walk [] pkgs = .ok reg → NoSelfEdge reg) :=
  ⟨visitOne_preserves_noSelfEdge,
   fun pkgs reg h =>
     walk_preserves_noSelfEdge pkgs [] reg (fun _ hx => absurd hx (List.not_mem_nil _)) h⟩

theorem no_self_edges_witness :
    NoSelfEdge [⟨"n.example", "1.0.0", "/src/n", "", []⟩,
                ⟨"m.example", "2.0.0", "/src/m", "", [("n.example", ["n.example/x"])]⟩] :=
  no_self_edges.2
    [⟨"n", "n.example/x", some ⟨"n.example", "v1.0.0", "/src/n", none⟩, [], []⟩,
     ⟨"a", "m.example/a", some ⟨"m.example", "v2.0.0", "/src/m", none⟩,
       [⟨"n.example/x", some ⟨"n.example", "v1.0.0", "/src/n", none⟩⟩, ⟨"fmt", none⟩], []⟩,
     ⟨"b", "m.example/b", some ⟨"m.example", "v2.0.0", "/src/m", none⟩,
       [⟨"n.example/x", some ⟨"n.example", "v1.0.0", "/src/n", none⟩⟩], []⟩]
    _ (by decide)

theorem packageSet_add_of_mem {s : List Path} {p : Path} (h : p ∈ s) :
    PackageSet.Add s p = s := by
  simp [PackageSet.Add, h]

theorem packageSet_add_of_not_mem {s : List Path} {p : Path} (h : p ∉ s) :
    PackageSet.Add s p = s ++ [p] := by
  simp [PackageSet.Add, h]

theorem packageSet_mem_add_self (s : List Path) (p : Path) :
    p ∈ PackageSet.Add s p := by
  by_cases h : p ∈ s
  · rw [packageSet_add_of_mem h]
    exact h
  · rw [packageSet_add_of_not_mem h]
    simp

theorem packageSet_addIter_fixed (s : List Path) (p : Path) (hp : p ∈ s) :
    ∀ n, Nat.iterate (fun t => PackageSet.Add t p) n s = s := by
  intro n
  induction n with
  | zero => rfl
  | succ k ih =>
    calc Nat.iterate (fun t => PackageSet.Add t p) (k + 1) s
        = Nat.iterate (fun t => PackageSet.Add t p) k (PackageSet.Add s p) := rfl
      _ = Nat.iterate (fun t => PackageSet.Add t p) k s := by rw [packageSet_add_of_mem hp]
      _ = s := ih

theorem count_flatten_zero {d : List (Path × List Path)} {p : Path}
    (h : ∀ e ∈ d, p ∉ e.2) : ((d.map Prod.snd).flatten).count p = 0 := by
  rw [List.count_eq_zero]
  intro hmem
  rw [List.mem_flatten] at hmem
  obtain ⟨l, hl, hpl⟩ := hmem
  rw [List.mem_map] at hl
  obtain ⟨e, he, rfl⟩ := hl
  exact h e he hpl

theorem count_flatten_depsAdd (d : List (Path × List Path)) (k p : Path)
    (h : ∀ e ∈ d, p ∉ e.2) :
    (((depsAdd d k p).map Prod.snd).flatten).count p = 1 := by
  induction d with
  | nil =>
    simp [depsAdd, PackageSet.Add]
  | cons e rest ih =>
    obtain ⟨k', s⟩ := e
    have hs : p ∉ s := h (k', s) (by simp)
    have hrest : ∀ e ∈ rest, p ∉ e.2 := fun e he => h e (by simp [he])
    by_cases hk : k' = k
    · rw [show depsAdd ((k', s) :: rest) k p = (k', PackageSet.Add s p) :: rest from by
          simp [depsAdd, hk]]
      simp only [List.map_cons, List.flatten_cons, List.count_append]
      rw [packageSet_add_of_not_mem hs]
      rw [count_flatten_zero hrest]
      simp [List.count_eq_zero.mpr hs, List.count_singleton]
    · rw [show depsAdd ((k', s) :: rest) k p = (k', s) :: depsAdd rest k p from by
          simp [depsAdd, hk]]
      simp only [List.map_cons, List.flatten_cons, List.count_append]
      rw [List.count_eq_zero.mpr hs, ih hrest]

theorem depsAdd_idem (d : List (Path × List Path)) (k p : Path) :
    depsAdd (depsAdd d k p) k p = depsAdd d k p := by
  induction d with
  | nil =>
    simp [depsAdd, packageSet_add_of_mem (packageSet_mem_add_self [] p)]
  | cons e rest ih =>
    obtain ⟨k', s⟩ := e
    by_cases hk : k' = k
    · simp only [depsAdd, if_pos hk]
      rw [packageSet_add_of_mem (packageSet_mem_add_self s p)]
    · simp only [depsAdd, if_neg hk]
      rw [ih]

theorem depsAddIter_collapse (m : Module) (k p : Path) :
    ∀ n, 1 ≤ n →
      Nat.iterate (fun mm => { mm with deps := depsAdd mm.deps k p }) n m
        = { m with deps := depsAdd m.deps k p } := by
  intro n hn
  induction n with
  | zero => cases hn
  | succ j ih =>
    cases Nat.eq_zero_or_pos j with
    | inl hz =>
      subst hz
      rfl
    | inr hpos =>
      calc Nat.iterate (fun mm => { mm with deps := depsAdd mm.deps k p }) (j + 1) m
          = Nat.iterate (fun mm => { mm with deps := depsAdd mm.deps k p }) j
              { m with deps := depsAdd m.deps k p } := rfl
        _ = { m with deps := depsAdd m.deps k p } := by
            have step : ∀ (mm : Module) (i : Nat),
                Nat.iterate (fun x => { x with deps := depsAdd x.deps k p }) i
                    { mm with deps := depsAdd mm.deps k p }
                  = { mm with deps := depsAdd mm.deps k p } := by
              intro mm i
              induction i with
              | zero => rfl
              | succ i ihh =>
                calc Nat.iterate (fun x => { x with deps := depsAdd x.deps k p }) (i + 1)
                        { mm with deps := depsAdd mm.deps k p }
                    = Nat.iterate (fun x => { x with deps := depsAdd x.deps k p }) i
                        { mm with deps := depsAdd (depsAdd mm.deps k p) k p } := rfl
                  _ = Nat.iterate (fun x => { x with deps := depsAdd x.deps k p }) i
                        { mm with deps := depsAdd mm.deps k p } := by rw [depsAdd_idem]
                  _ = { mm with deps := depsAdd mm.deps k p } := ihh
            exact step m j

/-- Claim C8: dependency edges are sets, not counts — re-inserting the same
package path into a `PackageSet` any positive number of times leaves the
set with exactly one entry for it, and after any positive number of
additions of the same `(imported module, package)` edge to a module, the
emitted dependency list (`Module.Imports`) mentions that package exactly
once. -/
theorem dependency_sets_deduplicate :
    (∀ (s : List Path) (p : Path), p ∉ s → ∀ n, 1 ≤ n →
        Nat.iterate (fun t => PackageSet.Add t p) n s = s ++ [p])
    ∧ (∀ (m : Module) (k p : Path), (∀ e ∈ m.deps, p ∉ e.2) → ∀ n, 1 ≤ n →
        ((Nat.iterate (fun mm => { mm with deps := depsAdd mm.deps k p }) n m).Imports).count p
          = 1) := by
  constructor
  · intro s p hp n hn
    cases n with
    | zero => cases hn
    | succ k =>
      calc Nat.iterate (fun t => PackageSet.Add t p) (k + 1) s
          = Nat.iterate (fun t => PackageSet.Add t p) k (PackageSet.Add s p) := rfl
        _ = Nat.iterate (fun t => PackageSet.Add t p) k (s ++ [p]) := by
            rw [packageSet_add_of_not_mem hp]
        _ = s ++ [p] := packageSet_addIter_fixed (s ++ [p]) p (by simp) k
  · intro m k p hfresh n hn
    rw [depsAddIter_collapse m k p n hn]
    unfold Module.Imports
    rw [List.Perm.count_eq (sortPaths_perm _)]
    exact count_flatten_depsAdd m.deps k p hfresh

theorem dependency_sets_deduplicate_witness :
    ((Nat.iterate
        (fun mm : Module => { mm with deps := depsAdd mm.deps "n.example" "n.example/x" }) 3
        ⟨"m.example", "1.0", "/d", "", []⟩).Imports).count "n.example/x" = 1 :=
  dependency_sets_deduplicate.2 ⟨"m.example", "1.0", "/d", "", []⟩ "n.example" "n.example/x"
    (by simp) 3 (by decide)

/-- `true` exactly on the non-panicking outcomes. -/
def isOkE {ε α : Type} : Except ε α → Bool
  | .ok _ => true
  | .error _ => false

/-- The precondition the dependency loop relies on for an import: the
`dep.Module` pointer is non-nil and its module is already registered. -/
def depResolvable (reg : Registry) (dep : ImportRec) : Bool :=
  match dep.module with
  | none => false
  | some dgm => (regLookup reg dgm.path).isSome

theorem regLookup_append_isSome {reg : Registry} {p : Path} (l : Registry)
    (h : (regLookup reg p).isSome = true) :
    (regLookup (reg ++ l) p).isSome = true := by
  induction reg with
  | nil => simp [regLookup] at h
  | cons m rest ih =>
    simp only [regLookup, List.cons_append, List.find?] at h ⊢
    cases hm : m.path == p with
    | true => rfl
    | false =>
      rw [hm] at h
      dsimp only at h ⊢
      exact ih h

theorem visitDeps_ok_of_resolvable (reg : Registry) (imps : List ImportRec)
    (h : ∀ dep ∈ imps, isBuiltin dep.pkgPath = false → depResolvable reg dep = true) :
    ∀ mod : Module, isOkE (visitDeps reg mod imps) = true := by
  induction imps with
  | nil =>
    intro mod
    rfl
  | cons dep rest ih =>
    intro mod
    have hrest : ∀ d ∈ rest, isBuiltin d.pkgPath = false → depResolvable reg d = true :=
      fun d hd => h d (by simp [hd])
    unfold visitDeps
    by_cases hb : isBuiltin dep.pkgPath
    · rw [if_pos hb]
      exact ih hrest mod
    · rw [if_neg hb]
      have hres := h dep (by simp) (by simpa using hb)
      unfold depResolvable at hres
      cases hdm : dep.module with
      | none =>
        rw [hdm] at hres
        simp at hres
      | some dgm =>
        rw [hdm] at hres
        dsimp only at hres
        dsimp only
        cases hlk : regLookup reg dgm.path with
        | none =>
          rw [hlk] at hres
          simp at hres
        | some depMod =>
          dsimp only
          by_cases heq : depMod.path = mod.path
          · rw [if_pos heq]
            exact ih hrest mod
          · rw [if_neg heq]
            exact ih hrest _

/-- Claim C10: in the dependency-collection loop, when a visited package
has no aggregated errors, a non-nil module pointer, and every one of its
non-builtin imports carries a non-nil owning module already registered,
the visit completes without error — in particular neither nil-dereference
branch (`dep.Module` nil, or the dep module missing from the registry) is
reached. -/
theorem dep_loop_no_nil_deref (reg : Registry) (pkg : GoPackage) (gm : GoModuleRec)
    (he : pkg.errors = []) (hm : pkg.module = some gm)
    (hdeps : ∀ dep ∈ pkg.imports, isBuiltin dep.pkgPath = false →
      depResolvable reg dep = true) :
    isOkE (visitOne reg pkg) = true := by
  unfold visitOne
  by_cases hb : isBuiltin pkg.pkgPath
  · rw [if_pos hb]
    rfl
  · rw [if_neg hb]
    rw [if_neg (by simp [he])]
    rw [hm]
    dsimp only
    cases hlk : regLookup reg gm.path with
    | some m0 =>
      dsimp only
      have hok := visitDeps_ok_of_resolvable reg pkg.imports hdeps m0
      cases hvd : visitDeps reg m0 pkg.imports with
      | error e =>
        rw [hvd] at hok
        simp [isOkE] at hok
      | ok mod' => rfl
    | none =>
      dsimp only
      have hdeps2 : ∀ dep ∈ pkg.imports, isBuiltin dep.pkgPath = false →
          depResolvable (reg ++ [mkModule gm]) dep = true := by
        intro dep hd hbd
        have h0 := hdeps dep hd hbd
        unfold depResolvable at h0 ⊢
        cases hdm : dep.module with
        | none => rw [hdm] at h0; cases h0
        | some dgm =>
          rw [hdm] at h0
          dsimp only at h0 ⊢
          exact regLookup_append_isSome [mkModule gm] h0
      have hok := visitDeps_ok_of_resolvable (reg ++ [mkModule gm]) pkg.imports hdeps2
        (mkModule gm)
      cases hvd : visitDeps (reg ++ [mkModule gm]) (mkModule gm) pkg.imports with
      | error e =>
        rw [hvd] at hok
        simp [isOkE] at hok
      | ok mod' => rfl

theorem dep_loop_no_nil_deref_witness :
    isOkE (visitOne [⟨"n.example", "1.0.0", "/src/n", "", []⟩]
      ⟨"a", "m.example/a", some ⟨"m.example", "v2.0.0", "/src/m", none⟩,
        [⟨"n.example/x", some ⟨"n.example", "v1.0.0", "/src/n", none⟩⟩, ⟨"fmt", none⟩],
        []⟩) = true :=
  dep_loop_no_nil_deref [⟨"n.example", "1.0.0", "/src/n", "", []⟩]
    ⟨"a", "m.example/a", some ⟨"m.example", "v2.0.0", "/src/m", none⟩,
      [⟨"n.example/x", some ⟨"n.example", "v1.0.0", "/src/n", none⟩⟩, ⟨"fmt", none⟩], []⟩
    ⟨"m.example", "v2.0.0", "/src/m", none⟩ rfl rfl (by decide)

/-- Two `Module` records describe the same graph node when all scalar
fields agree and their dependency structures contain the same multiset of
imported package paths — exactly what two runs over the same Go maps, with
different map-iteration orders, produce. -/
def DataEquiv (a b : Module) : Prop :=
  a.path = b.path ∧ a.version = b.version ∧ a.dir = b.dir
    ∧ a.replacePath = b.replacePath
    ∧ List.Perm ((a.deps.map Prod.snd).flatten) ((b.deps.map Prod.snd).flatten)

def lookupEquiv : Option Module → Option Module → Prop
  | some a, some b => DataEquiv a b
  | none, none => True
  | _, _ => False

/-- Two registries are views of the same package graph: same key multiset,
and every key resolves to equivalent module data. -/
def RunEquiv (r₁ r₂ : Registry) : Prop :=
  List.Perm (r₁.map Module.path) (r₂.map Module.path)
    ∧ ∀ p ∈ r₁.map Module.path, lookupEquiv (regLookup r₁ p) (regLookup r₂ p)

instance decDataEquiv (a b : Module) : Decidable (DataEquiv a b) := by
  unfold DataEquiv
  infer_instance

instance decLookupEquiv : (o₁ o₂ : Option Module) → Decidable (lookupEquiv o₁ o₂)
  | some a, some b => decDataEquiv a b
  | none, none => .isTrue trivial
  | some _, none => .isFalse (fun h => h)
  | none, some _ => .isFalse (fun h => h)

instance decRunEquiv (r₁ r₂ : Registry) : Decidable (RunEquiv r₁ r₂) := by
  unfold RunEquiv
  infer_instance

theorem imports_eq_of_dataEquiv {a b : Module} (h : DataEquiv a b) :
    a.Imports = b.Imports := by
  unfold Module.Imports
  exact sortPaths_eq_of_perm h.2.2.2.2

theorem renderModule_congr (sha : String) {a b : Module} (h : DataEquiv a b) :
    renderModule sha a = renderModule sha b := by
  have himp := imports_eq_of_dataEquiv h
  obtain ⟨hp, hv, _, _, _⟩ := h
  unfold renderModule
  rw [himp, hp, hv]

theorem emitStep_congr (hash : String → String) {a b : Module} (h : DataEquiv a b) :
    emitStep hash a = emitStep hash b := by
  have hext : a.IsExternal = b.IsExternal := by
    unfold Module.IsExternal
    rw [h.1]
  have hms : a.ModSHA256 hash = b.ModSHA256 hash := by
    unfold Module.ModSHA256
    rw [h.2.2.1, h.1]
  have hren : ∀ sha, renderModule sha a = renderModule sha b :=
    fun sha => renderModule_congr sha h
  unfold emitStep
  rw [hext, h.2.2.2.1, h.1, hms]
  simp only [hren]

theorem emitLoop_congr (hash : String → String) (r₁ r₂ : Registry)
    (ps : List Path)
    (hlk : ∀ p ∈ ps, lookupEquiv (regLookup r₁ p) (regLookup r₂ p)) :
    emitLoop hash r₁ ps = emitLoop hash r₂ ps := by
  induction ps with
  | nil => rfl
  | cons p rest ih =>
    have hrest : ∀ q ∈ rest, lookupEquiv (regLookup r₁ q) (regLookup r₂ q) :=
      fun q hq => hlk q (by simp [hq])
    have hp := hlk p (by simp)
    unfold emitLoop
    cases h1 : regLookup r₁ p with
    | none =>
      cases h2 : regLookup r₂ p with
      | none => rfl
      | some m₂ =>
        rw [h1, h2] at hp
        cases hp
    | some m₁ =>
      cases h2 : regLookup r₂ p with
      | none =>
        rw [h1, h2] at hp
        cases hp
      | some m₂ =>
        rw [h1, h2] at hp
        have hde : DataEquiv m₁ m₂ := hp
        dsimp only
        rw [emitStep_congr hash hde]
        cases emitStep hash m₂ with
        | error e => rfl
        | ok o =>
          cases o with
          | none => exact ih hrest
          | some out => rw [ih hrest]

/-- The emission phase is invariant under registry iteration order: two
registries holding the same modules emit byte-identical sequences. -/
theorem emitAll_congr (hash : String → String) (r₁ r₂ : Registry)
    (hrun : RunEquiv r₁ r₂) : emitAll hash r₁ = emitAll hash r₂ := by
  obtain ⟨hkeys, hlook⟩ := hrun
  unfold emitAll
  rw [sortPaths_eq_of_perm hkeys]
  apply emitLoop_congr
  intro p hp
  have hp₂ : p ∈ r₂.map Module.path := (sortPaths_perm _).subset hp
  exact hlook p (hkeys.symm.subset hp₂)

/-! ### Order-free characterization of the walk

To settle the two-full-runs half of the determinism claim, every
successful walk's registry is characterized by functions of its package
graph that do not depend on traversal or map-iteration order: the set of
module paths, the scalar data of each module record, and the set of
`(dep module path, package path)` edges. -/

/-- The module record a package contributes to the registry, if any:
builtins are pruned by the traversal, module-less packages register
nothing (they are skipped or abort). -/
def pkgMod (p : GoPackage) : Option GoModuleRec :=
  if isBuiltin p.pkgPath then none else p.module

/-- The dependency edges one package's import list contributes to its own
module `mp`: one `(dep module path, package path)` pair per non-builtin
foreign-module entry of the list. -/
def impContrib (mp : Path) (imps : List ImportRec) : List (Path × Path) :=
  imps.filterMap (fun d =>
    if isBuiltin d.pkgPath then none
    else match d.module with
      | some dgm => if dgm.path = mp then none else some (dgm.path, d.pkgPath)
      | none => none)

def pkgContrib (mp : Path) (p : GoPackage) : List (Path × Path) :=
  match pkgMod p with
  | some gm => if gm.path = mp then impContrib mp p.imports else []
  | none => []

/-- All dependency edges the graph `g` makes module `mp` acquire. -/
def addsFor (g : List GoPackage) (mp : Path) : List (Path × Path) :=
  (g.map (pkgContrib mp)).flatten

/-- The `(dep key, package)` pairs stored in a deps structure. -/
def pairsOf (d : List (Path × List Path)) : List (Path × Path) :=
  (d.map (fun e => e.2.map (fun q => (e.1, q)))).flatten

/-- Well-formedness the walk maintains for every deps structure: distinct
dep keys, and each package set duplicate-free. -/
def WFdeps (d : List (Path × List Path)) : Prop :=
  (d.map Prod.fst).Nodup ∧ ∀ e ∈ d, e.2.Nodup

def SameScalars (a b : Module) : Prop :=
  a.path = b.path ∧ a.version = b.version ∧ a.dir = b.dir
    ∧ a.replacePath = b.replacePath

theorem regLookup_path {reg : Registry} {mp : Path} {m : Module}
    (h : regLookup reg mp = some m) : m.path = mp := by
  have := List.find?_some h
  simpa using this

theorem regLookup_isSome_iff_mem (reg : Registry) (mp : Path) :
    (regLookup reg mp).isSome = true ↔ mp ∈ reg.map Module.path := by
  unfold regLookup
  rw [List.find?_isSome]
  constructor
  · rintro ⟨m, hm, hp⟩
    exact List.mem_map.mpr ⟨m, hm, by simpa using hp⟩
  · intro h
    obtain ⟨m, hm, hp⟩ := List.mem_map.mp h
    exact ⟨m, hm, by simpa using hp⟩

theorem regLookup_append_eq (reg l : Registry) (mp : Path) :
    regLookup (reg ++ l) mp =
      match regLookup reg mp with
      | some m => some m
      | none => regLookup l mp := by
  unfold regLookup
  rw [List.find?_append]
  cases reg.find? (fun m => m.path == mp) <;> rfl

theorem regUpdate_map_path (reg : Registry) (m' : Module) :
    (regUpdate reg m').map Module.path = reg.map Module.path := by
  induction reg with
  | nil => rfl
  | cons x rest ih =>
    by_cases h : x.path = m'.path
    · simp [regUpdate, h] at ih ⊢
      exact ih
    · simp [regUpdate, h] at ih ⊢
      exact ih

theorem regUpdate_lookup_other {reg : Registry} {m' : Module} {mp : Path}
    (hne : mp ≠ m'.path) :
    regLookup (regUpdate reg m') mp = regLookup reg mp := by
  induction reg with
  | nil => rfl
  | cons x rest ih =>
    by_cases h : x.path = m'.path
    · have hx : (x.path == mp) = false := by
        simp [h]
        exact fun he => hne he.symm
      have hm' : (m'.path == mp) = false := by
        simp
        exact fun he => hne he.symm
      simp only [regUpdate, List.map_cons, if_pos h] at ih ⊢
      unfold regLookup at ih ⊢
      simp only [List.find?, hx, hm']
      exact ih
    · simp only [regUpdate, List.map_cons, if_neg h] at ih ⊢
      unfold regLookup at ih ⊢
      simp only [List.find?]
      cases x.path == mp
      · exact ih
      · rfl

theorem regUpdate_lookup_self {reg : Registry} {m m' : Module} {mp : Path}
    (h : regLookup reg mp = some m) (hp : m'.path = mp) :
    regLookup (regUpdate reg m') mp = some m' := by
  induction reg with
  | nil => simp [regLookup] at h
  | cons x rest ih =>
    unfold regLookup at h ⊢
    cases hx : x.path == mp with
    | true =>
      have hxp : x.path = m'.path := by
        rw [hp]
        simpa using hx
      simp only [regUpdate, List.map_cons, if_pos hxp]
      simp only [List.find?, show (m'.path == mp) = true by simp [hp]]
    | false =>
      rw [List.find?] at h
      rw [hx] at h
      dsimp only at h
      have hxp : ¬ x.path = m'.path := by
        rw [hp]
        intro he
        rw [he] at hx
        simp at hx
      simp only [regUpdate, List.map_cons, if_neg hxp]
      rw [List.find?, hx]
      dsimp only
      exact ih h

theorem pairsOf_cons (e : Path × List Path) (rest : List (Path × List Path)) :
    pairsOf (e :: rest) = e.2.map (fun q => (e.1, q)) ++ pairsOf rest := rfl

theorem depsAdd_cons (k' : Path) (s : List Path) (rest : List (Path × List Path))
    (k q : Path) :
    depsAdd ((k', s) :: rest) k q =
      if k' = k then (k', PackageSet.Add s q) :: rest
      else (k', s) :: depsAdd rest k q := rfl

theorem packageSet_mem_add (s : List Path) (q x : Path) :
    x ∈ PackageSet.Add s q ↔ x ∈ s ∨ x = q := by
  by_cases h : q ∈ s
  · rw [packageSet_add_of_mem h]
    constructor
    · exact fun h1 => .inl h1
    · rintro (h1 | rfl)
      · exact h1
      · exact h
  · rw [packageSet_add_of_not_mem h]
    simp

theorem pairsOf_mem_depsAdd (d : List (Path × List Path)) (k q : Path) :
    ∀ pr, pr ∈ pairsOf (depsAdd d k q) ↔ pr ∈ pairsOf d ∨ pr = (k, q) := by
  intro pr
  induction d with
  | nil =>
    simp [depsAdd, PackageSet.Add, pairsOf, eq_comm]
  | cons e rest ih =>
    obtain ⟨k', s⟩ := e
    rw [depsAdd_cons]
    by_cases hk : k' = k
    · subst hk
      rw [if_pos rfl]
      simp only [pairsOf_cons, List.mem_append, List.mem_map, packageSet_mem_add]
      constructor
      · rintro (⟨x, hx | rfl, rfl⟩ | h)
        · exact .inl (.inl ⟨x, hx, rfl⟩)
        · exact .inr rfl
        · exact .inl (.inr h)
      · rintro ((⟨x, hx, rfl⟩ | h) | rfl)
        · exact .inl ⟨x, .inl hx, rfl⟩
        · exact .inr h
        · exact .inl ⟨q, .inr rfl, rfl⟩
    · rw [if_neg hk]
      simp only [pairsOf_cons, List.mem_append, ih]
      tauto

theorem packageSet_add_nodup {s : List Path} {q : Path} (hs : s.Nodup) :
    (PackageSet.Add s q).Nodup := by
  by_cases h : q ∈ s
  · rw [packageSet_add_of_mem h]
    exact hs
  · rw [packageSet_add_of_not_mem h]
    simp [List.nodup_append, hs, h]

theorem depsAdd_map_fst (d : List (Path × List Path)) (k q : Path) :
    (depsAdd d k q).map Prod.fst = d.map Prod.fst
      ∨ ((depsAdd d k q).map Prod.fst = d.map Prod.fst ++ [k] ∧ k ∉ d.map Prod.fst) := by
  induction d with
  | nil => simp [depsAdd]
  | cons e rest ih =>
    obtain ⟨k', s⟩ := e
    rw [depsAdd_cons]
    by_cases hk : k' = k
    · rw [if_pos hk]
      exact .inl (by simp)
    · rw [if_neg hk]
      rcases ih with h | ⟨h, hnk⟩
      · exact .inl (by simp only [List.map_cons, h])
      · refine .inr ⟨by simp only [List.map_cons, h, List.cons_append], ?_⟩
        simp only [List.map_cons, List.mem_cons]
        rintro (h1 | h1)
        · exact hk h1.symm
        · exact hnk h1

theorem depsAdd_sets_nodup {d : List (Path × List Path)} {k q : Path}
    (hsets : ∀ e ∈ d, e.2.Nodup) :
    ∀ e ∈ depsAdd d k q, e.2.Nodup := by
  induction d with
  | nil =>
    intro e he
    rw [show depsAdd [] k q = [(k, PackageSet.Add [] q)] from rfl,
      List.mem_singleton] at he
    rw [he]
    exact packageSet_add_nodup List.nodup_nil
  | cons e₀ rest ih =>
    obtain ⟨k', s⟩ := e₀
    intro e he
    rw [depsAdd_cons] at he
    by_cases hk : k' = k
    · rw [if_pos hk] at he
      rcases List.mem_cons.mp he with rfl | he'
      · exact packageSet_add_nodup (hsets (k', s) (by simp))
      · exact hsets e (by simp [he'])
    · rw [if_neg hk] at he
      rcases List.mem_cons.mp he with rfl | he'
      · exact hsets (k', s) (by simp)
      · exact ih (fun e' h' => hsets e' (by simp [h'])) e he'

theorem WFdeps_depsAdd {d : List (Path × List Path)} {k q : Path}
    (h : WFdeps d) : WFdeps (depsAdd d k q) := by
  obtain ⟨hkeys, hsets⟩ := h
  constructor
  · rcases depsAdd_map_fst d k q with he | ⟨he, hnk⟩
    · rw [he]
      exact hkeys
    · rw [he]
      simp [List.nodup_append, hkeys, hnk]
  · exact depsAdd_sets_nodup hsets

theorem pairsOf_nodup_of_WF {d : List (Path × List Path)} (h : WFdeps d) :
    (pairsOf d).Nodup := by
  obtain ⟨hkeys, hsets⟩ := h
  unfold pairsOf
  rw [List.nodup_flatten]
  constructor
  · intro l hl
    obtain ⟨e, he, rfl⟩ := List.mem_map.mp hl
    exact (hsets e he).map (fun a b hab => by simpa using hab)
  · rw [List.pairwise_map]
    have hne : List.Pairwise (fun e₁ e₂ : Path × List Path => e₁.1 ≠ e₂.1) d := by
      rw [← List.pairwise_map (f := Prod.fst)]
      exact hkeys
    refine hne.imp ?_
    intro e₁ e₂ hne12
    intro pr h1 h2
    obtain ⟨x, _, rfl⟩ := List.mem_map.mp h1
    obtain ⟨y, _, hy⟩ := List.mem_map.mp h2
    exact hne12 (by simpa using congrArg Prod.fst hy.symm)

theorem pairsOf_snd (d : List (Path × List Path)) :
    (pairsOf d).map Prod.snd = (d.map Prod.snd).flatten := by
  unfold pairsOf
  rw [List.map_flatten]
  congr 1
  rw [List.map_map]
  apply List.map_congr_left
  intro e _
  simp [Function.comp]

theorem impContrib_cons_builtin {d : ImportRec} (rest : List ImportRec) (mp : Path)
    (hb : isBuiltin d.pkgPath = true) :
    impContrib mp (d :: rest) = impContrib mp rest := by
  simp [impContrib, List.filterMap_cons, hb]

theorem impContrib_cons_none {d : ImportRec} (rest : List ImportRec) (mp : Path)
    (hb : isBuiltin d.pkgPath = false) (hm : d.module = none) :
    impContrib mp (d :: rest) = impContrib mp rest := by
  simp [impContrib, List.filterMap_cons, hb, hm]

theorem impContrib_cons_same {d : ImportRec} {dgm : GoModuleRec}
    (rest : List ImportRec) (mp : Path)
    (hb : isBuiltin d.pkgPath = false) (hm : d.module = some dgm)
    (hp : dgm.path = mp) :
    impContrib mp (d :: rest) = impContrib mp rest := by
  simp [impContrib, List.filterMap_cons, hb, hm, hp]

theorem impContrib_cons_other {d : ImportRec} {dgm : GoModuleRec}
    (rest : List ImportRec) (mp : Path)
    (hb : isBuiltin d.pkgPath = false) (hm : d.module = some dgm)
    (hp : ¬ dgm.path = mp) :
    impContrib mp (d :: rest) = (dgm.path, d.pkgPath) :: impContrib mp rest := by
  simp [impContrib, List.filterMap_cons, hb, hm, hp]

theorem visitDeps_char (reg₂ : Registry) (imps : List ImportRec) :
    ∀ mod mod', visitDeps reg₂ mod imps = .ok mod' →
      SameScalars mod' mod
      ∧ (WFdeps mod.deps → WFdeps mod'.deps)
      ∧ (∀ pr, pr ∈ pairsOf mod'.deps ↔
          pr ∈ pairsOf mod.deps ∨ pr ∈ impContrib mod.path imps) := by
  induction imps with
  | nil =>
    intro mod mod' h
    cases h
    exact ⟨⟨rfl, rfl, rfl, rfl⟩, fun hw => hw, fun pr => by simp [impContrib]⟩
  | cons d rest ih =>
    intro mod mod' h
    unfold visitDeps at h
    by_cases hb : isBuiltin d.pkgPath
    · rw [if_pos hb] at h
      obtain ⟨h1, h2, h3⟩ := ih mod mod' h
      refine ⟨h1, h2, fun pr => ?_⟩
      rw [impContrib_cons_builtin rest mod.path hb]
      exact h3 pr
    · rw [if_neg hb] at h
      have hb' : isBuiltin d.pkgPath = false := by simpa using hb
      cases hdm : d.module with
      | none =>
        rw [hdm] at h
        cases h
      | some dgm =>
        rw [hdm] at h
        dsimp only at h
        cases hlk : regLookup reg₂ dgm.path with
        | none =>
          rw [hlk] at h
          cases h
        | some depMod =>
          rw [hlk] at h
          dsimp only at h
          have hdp : depMod.path = dgm.path := regLookup_path hlk
          by_cases heq : depMod.path = mod.path
          · rw [if_pos heq] at h
            obtain ⟨h1, h2, h3⟩ := ih mod mod' h
            refine ⟨h1, h2, fun pr => ?_⟩
            rw [impContrib_cons_same rest mod.path hb' hdm (by rw [← hdp]; exact heq)]
            exact h3 pr
          · rw [if_neg heq] at h
            obtain ⟨h1, h2, h3⟩ := ih _ mod' h
            refine ⟨h1, ?_, fun pr => ?_⟩
            · intro hw
              exact h2 (WFdeps_depsAdd hw)
            · rw [impContrib_cons_other rest mod.path hb' hdm (by rw [← hdp]; exact heq)]
              rw [h3 pr, pairsOf_mem_depsAdd, hdp]
              simp only [List.mem_cons]
              tauto

theorem mkModule_path (gm : GoModuleRec) : (mkModule gm).path = gm.path := by
  cases hr : gm.replace <;> simp [mkModule, hr]

theorem mkModule_deps (gm : GoModuleRec) : (mkModule gm).deps = [] := by
  cases hr : gm.replace <;> simp [mkModule, hr]

theorem sameScalars_trans {a b c : Module} (h₁ : SameScalars a b)
    (h₂ : SameScalars b c) : SameScalars a c :=
  ⟨h₁.1.trans h₂.1, h₁.2.1.trans h₂.2.1, h₁.2.2.1.trans h₂.2.2.1,
   h₁.2.2.2.trans h₂.2.2.2⟩

theorem addsFor_cons (p₀ : GoPackage) (gp : List GoPackage) (mp : Path) :
    addsFor (p₀ :: gp) mp = pkgContrib mp p₀ ++ addsFor gp mp := rfl

theorem addsFor_append_single (gp : List GoPackage) (p : GoPackage) (mp : Path) :
    addsFor (gp ++ [p]) mp = addsFor gp mp ++ pkgContrib mp p := by
  unfold addsFor
  rw [List.map_append, List.flatten_append]
  simp

theorem pkgContrib_of_none {p : GoPackage} (mp : Path) (h : pkgMod p = none) :
    pkgContrib mp p = [] := by
  simp [pkgContrib, h]

theorem pkgContrib_of_same {p : GoPackage} {gm : GoModuleRec} (h : pkgMod p = some gm)
    (hp : gm.path = mp) : pkgContrib mp p = impContrib mp p.imports := by
  simp [pkgContrib, h, hp]

theorem pkgContrib_of_other {p : GoPackage} {gm : GoModuleRec} (h : pkgMod p = some gm)
    (hp : ¬ gm.path = mp) : pkgContrib mp p = [] := by
  simp [pkgContrib, h, hp]

theorem addsFor_nil_of_absent (gp : List GoPackage) (mp : Path)
    (h : ∀ gm ∈ gp.filterMap pkgMod, gm.path ≠ mp) : addsFor gp mp = [] := by
  induction gp with
  | nil => rfl
  | cons p₀ rest ih =>
    rw [addsFor_cons]
    have hrest : ∀ gm ∈ rest.filterMap pkgMod, gm.path ≠ mp := by
      intro gm hgm
      exact h gm (by rw [List.filterMap_cons]; cases hpm : pkgMod p₀ <;> simp [hpm, hgm])
    rw [ih hrest, List.append_nil]
    cases hpm : pkgMod p₀ with
    | none => exact pkgContrib_of_none mp hpm
    | some gm₀ =>
      refine pkgContrib_of_other hpm (h gm₀ ?_)
      rw [List.filterMap_cons, hpm]
      simp

/-- The order-free characterization a successful walk maintains: registry
keys are exactly the distinct module paths of the visited packages, every
registered module's scalar fields come from one of its packages' records,
and its dependency pairs are exactly the edges the processed packages
contribute. -/
def Characterizes (gp : List GoPackage) (reg : Registry) : Prop :=
  (reg.map Module.path).Nodup
  ∧ (∀ mp : Path, (regLookup reg mp).isSome = true ↔
      ∃ gm ∈ gp.filterMap pkgMod, gm.path = mp)
  ∧ (∀ mp m, regLookup reg mp = some m →
      (∃ gm ∈ gp.filterMap pkgMod, gm.path = mp ∧ SameScalars m (mkModule gm))
      ∧ WFdeps m.deps
      ∧ (∀ pr, pr ∈ pairsOf m.deps ↔ pr ∈ addsFor gp mp))

theorem char_unchanged {gp : List GoPackage} {reg : Registry} {p : GoPackage}
    (hpm : pkgMod p = none) (hc : Characterizes gp reg) :
    Characterizes (gp ++ [p]) reg := by
  obtain ⟨hnd, hmem, hkey⟩ := hc
  have hext : (gp ++ [p]).filterMap pkgMod = gp.filterMap pkgMod := by
    rw [List.filterMap_append]
    simp [List.filterMap_cons, hpm]
  refine ⟨hnd, fun mp => ?_, fun mp m hm => ?_⟩
  · rw [hext]
    exact hmem mp
  · obtain ⟨hex, hwf, hpr⟩ := hkey mp m hm
    refine ⟨by rw [hext]; exact hex, hwf, fun pr => ?_⟩
    rw [addsFor_append_single, pkgContrib_of_none mp hpm, List.append_nil]
    exact hpr pr

theorem visitOne_char {gp : List GoPackage} {reg : Registry} {p : GoPackage}
    {reg' : Registry} (hc : Characterizes gp reg) (hv : visitOne reg p = .ok reg') :
    Characterizes (gp ++ [p]) reg' := by
  obtain ⟨hnd, hmem, hkey⟩ := hc
  unfold visitOne at hv
  by_cases hb : isBuiltin p.pkgPath
  · rw [if_pos hb] at hv
    cases hv
    exact char_unchanged (by simp [pkgMod, hb]) ⟨hnd, hmem, hkey⟩
  · rw [if_neg hb] at hv
    by_cases he : p.errors ≠ []
    · rw [if_pos he] at hv
      cases hv
    · rw [if_neg he] at hv
      cases hm : p.module with
      | none =>
        rw [hm] at hv
        have hpm : pkgMod p = none := by simp [pkgMod, hm]
        by_cases h1 : (p.name == "main" && goEndsWith p.pkgPath ".test") = true
        · rw [if_pos h1] at hv
          cases hv
          exact char_unchanged hpm ⟨hnd, hmem, hkey⟩
        · rw [if_neg h1] at hv
          by_cases h2 : goEndsWith p.pkgPath "_test" = true
          · rw [if_pos h2] at hv
            cases hv
            exact char_unchanged hpm ⟨hnd, hmem, hkey⟩
          · rw [if_neg h2] at hv
            cases hv
      | some gm =>
        rw [hm] at hv
        dsimp only at hv
        have hpm : pkgMod p = some gm := by
          simp [pkgMod, hb, hm]
        have hext : (gp ++ [p]).filterMap pkgMod = gp.filterMap pkgMod ++ [gm] := by
          rw [List.filterMap_append]
          simp [List.filterMap_cons, hpm]
        cases hlk : regLookup reg gm.path with
        | some m0 =>
          rw [hlk] at hv
          dsimp only at hv
          cases hvd : visitDeps reg m0 p.imports with
          | error e =>
            rw [hvd] at hv
            cases hv
          | ok mod' =>
            rw [hvd] at hv
            cases hv
            obtain ⟨hsc, hwf, hpairs⟩ := visitDeps_char reg p.imports m0 mod' hvd
            have hm0p : m0.path = gm.path := regLookup_path hlk
            have hmodp : mod'.path = gm.path := by rw [hsc.1, hm0p]
            obtain ⟨hex0, hwf0, hpr0⟩ := hkey gm.path m0 hlk
            refine ⟨by rw [regUpdate_map_path]; exact hnd, fun mp => ?_, fun mp m hmm => ?_⟩
            · have hiso : (regLookup (regUpdate reg mod') mp).isSome = true ↔
                  (regLookup reg mp).isSome = true := by
                rw [regLookup_isSome_iff_mem, regLookup_isSome_iff_mem, regUpdate_map_path]
              rw [hiso, hmem mp, hext]
              constructor
              · rintro ⟨gm', hgm', hp'⟩
                exact ⟨gm', List.mem_append.mpr (.inl hgm'), hp'⟩
              · rintro ⟨gm', hgm', hp'⟩
                rcases List.mem_append.mp hgm' with h' | h'
                · exact ⟨gm', h', hp'⟩
                · rcases List.mem_singleton.mp h' with rfl
                  subst hp'
                  exact (hmem gm'.path).mp (by rw [hlk]; rfl)
            · by_cases hmp : mp = gm.path
              · subst hmp
                rw [regUpdate_lookup_self hlk hmodp] at hmm
                cases hmm
                obtain ⟨gm₀, hgm₀, hgm₀p, hgm₀s⟩ := hex0
                refine ⟨⟨gm₀, by rw [hext]; exact List.mem_append.mpr (.inl hgm₀),
                    hgm₀p, sameScalars_trans hsc hgm₀s⟩, hwf hwf0, fun pr => ?_⟩
                rw [addsFor_append_single, pkgContrib_of_same hpm rfl]
                rw [hpairs pr, hm0p, hpr0 pr, List.mem_append]
              · rw [regUpdate_lookup_other (by rw [hmodp]; exact hmp)] at hmm
                obtain ⟨hex1, hwf1, hpr1⟩ := hkey mp m hmm
                obtain ⟨gm₁, hgm₁, hgm₁p, hgm₁s⟩ := hex1
                refine ⟨⟨gm₁, by rw [hext]; exact List.mem_append.mpr (.inl hgm₁),
                    hgm₁p, hgm₁s⟩, hwf1, fun pr => ?_⟩
                rw [addsFor_append_single,
                  pkgContrib_of_other hpm (fun h' => hmp h'.symm), List.append_nil]
                exact hpr1 pr
        | none =>
          rw [hlk] at hv
          dsimp only at hv
          cases hvd : visitDeps (reg ++ [mkModule gm]) (mkModule gm) p.imports with
          | error e =>
            rw [hvd] at hv
            cases hv
          | ok mod' =>
            rw [hvd] at hv
            cases hv
            obtain ⟨hsc, hwf, hpairs⟩ :=
              visitDeps_char (reg ++ [mkModule gm]) p.imports (mkModule gm) mod' hvd
            have hmodp : mod'.path = gm.path := by rw [hsc.1, mkModule_path]
            have hnotmem : gm.path ∉ reg.map Module.path := by
              intro hmemk
              have h' := (regLookup_isSome_iff_mem reg gm.path).mpr hmemk
              rw [hlk] at h'
              simp at h'
            have hnoold : ∀ gm' ∈ gp.filterMap pkgMod, gm'.path ≠ gm.path := by
              intro gm' hgm' hp'
              have h' := (hmem gm.path).mpr ⟨gm', hgm', hp'⟩
              rw [hlk] at h'
              simp at h'
            have hlk2 : regLookup (reg ++ [mkModule gm]) gm.path = some (mkModule gm) := by
              rw [regLookup_append_eq, hlk]
              unfold regLookup
              simp [List.find?, mkModule_path]
            have hlkother : ∀ mp, mp ≠ gm.path →
                regLookup (reg ++ [mkModule gm]) mp = regLookup reg mp := by
              intro mp hmp
              rw [regLookup_append_eq]
              cases hro : regLookup reg mp with
              | some m₁ => rfl
              | none =>
                unfold regLookup
                rw [List.find?]
                rw [show ((mkModule gm).path == mp) = false by
                      rw [mkModule_path]
                      simp
                      exact fun h' => hmp h'.symm]
                rfl
            refine ⟨?_, fun mp => ?_, fun mp m hmm => ?_⟩
            · rw [regUpdate_map_path, List.map_append]
              simp only [List.map_cons, List.map_nil, mkModule_path]
              refine List.nodup_append.mpr ⟨hnd, by simp, ?_⟩
              intro a ha hb'
              rcases List.mem_singleton.mp hb' with rfl
              exact hnotmem ha
            · have hiso : (regLookup (regUpdate (reg ++ [mkModule gm]) mod') mp).isSome = true ↔
                  (regLookup (reg ++ [mkModule gm]) mp).isSome = true := by
                rw [regLookup_isSome_iff_mem, regLookup_isSome_iff_mem, regUpdate_map_path]
              rw [hiso, hext]
              by_cases hmp : mp = gm.path
              · subst hmp
                rw [hlk2]
                simp only [Option.isSome_some, true_iff]
                exact ⟨gm, List.mem_append.mpr (.inr (by simp)), rfl⟩
              · rw [hlkother mp hmp, hmem mp]
                constructor
                · rintro ⟨gm', hgm', hp'⟩
                  exact ⟨gm', List.mem_append.mpr (.inl hgm'), hp'⟩
                · rintro ⟨gm', hgm', hp'⟩
                  rcases List.mem_append.mp hgm' with h' | h'
                  · exact ⟨gm', h', hp'⟩
                  · rcases List.mem_singleton.mp h' with rfl
                    exact absurd hp'.symm hmp
            · by_cases hmp : mp = gm.path
              · subst hmp
                rw [regUpdate_lookup_self hlk2 hmodp] at hmm
                cases hmm
                refine ⟨⟨gm, by rw [hext]; exact List.mem_append.mpr (.inr (by simp)),
                    rfl, hsc⟩, hwf (by rw [mkModule_deps]; exact ⟨List.nodup_nil, by simp⟩),
                    fun pr => ?_⟩
                rw [addsFor_append_single, pkgContrib_of_same hpm rfl,
                  addsFor_nil_of_absent gp gm.path hnoold, List.nil_append]
                rw [hpairs pr, mkModule_path, mkModule_deps]
                simp [pairsOf]
              · rw [regUpdate_lookup_other (by rw [hmodp]; exact hmp),
                  hlkother mp hmp] at hmm
                obtain ⟨hex1, hwf1, hpr1⟩ := hkey mp m hmm
                obtain ⟨gm₁, hgm₁, hgm₁p, hgm₁s⟩ := hex1
                refine ⟨⟨gm₁, by rw [hext]; exact List.mem_append.mpr (.inl hgm₁),
                    hgm₁p, hgm₁s⟩, hwf1, fun pr => ?_⟩
                rw [addsFor_append_single,
                  pkgContrib_of_other hpm (fun h' => hmp h'.symm), List.append_nil]
                exact hpr1 pr

theorem walk_char (g : List GoPackage) :
    ∀ (gp : List GoPackage) (reg reg' : Registry),
      Characterizes gp reg → walk reg g = .ok reg' → Characterizes (gp ++ g) reg' := by
  induction g with
  | nil =>
    intro gp reg reg' hc hw
    cases hw
    simpa using hc
  | cons p rest ih =>
    intro gp reg reg' hc hw
    unfold walk at hw
    cases hv : visitOne reg p with
    | error e =>
      rw [hv] at hw
      cases hw
    | ok reg₂ =>
      rw [hv] at hw
      have h' := ih (gp ++ [p]) reg₂ reg' (visitOne_char hc hv) hw
      rw [List.append_assoc] at h'
      exact h'

theorem char_init : Characterizes [] [] := by
  refine ⟨by simp, fun mp => ?_, fun mp m hm => ?_⟩
  · simp [regLookup]
  · simp [regLookup] at hm

theorem walk_characterizes {g : List GoPackage} {reg : Registry}
    (h : walk [] g = .ok reg) : Characterizes g reg := by
  have h' := walk_char g [] [] reg char_init h
  simpa using h'

/-- Two packages that are the same node of the graph, read through two
map-iteration orders: all scalar fields agree, the import list is a
permutation. -/
def PkgEquiv (a b : GoPackage) : Prop :=
  a.name = b.name ∧ a.pkgPath = b.pkgPath ∧ a.module = b.module
    ∧ List.Perm a.imports b.imports ∧ a.errors = b.errors

instance decPkgEquiv (a b : GoPackage) : Decidable (PkgEquiv a b) := by
  unfold PkgEquiv
  infer_instance

def recsAgree : Option GoModuleRec → Option GoModuleRec → Prop
  | some a, some b => a.path = b.path → a = b
  | _, _ => True

instance decRecsAgree : (o₁ o₂ : Option GoModuleRec) → Decidable (recsAgree o₁ o₂)
  | some a, some b => inferInstanceAs (Decidable (a.path = b.path → a = b))
  | some _, none => .isTrue trivial
  | none, some _ => .isTrue trivial
  | none, none => .isTrue trivial

/-- An identical graph presents one module record per module path: any two
packages of the graph whose records share a path share the whole record
(in Go they share the `*packages.Module` pointer). -/
def ModConsistent (g : List GoPackage) : Prop :=
  ∀ p ∈ g, ∀ q ∈ g, recsAgree p.module q.module

instance decModConsistent (g : List GoPackage) : Decidable (ModConsistent g) := by
  unfold ModConsistent
  infer_instance

instance decForall2 {α β : Type} (r : α → β → Prop) [∀ a b, Decidable (r a b)] :
    ∀ (l₁ : List α) (l₂ : List β), Decidable (List.Forall₂ r l₁ l₂)
  | [], [] => .isTrue .nil
  | [], _ :: _ => .isFalse (fun h => by cases h)
  | _ :: _, [] => .isFalse (fun h => by cases h)
  | a :: t₁, b :: t₂ =>
    haveI := decForall2 r t₁ t₂
    decidable_of_iff (r a b ∧ List.Forall₂ r t₁ t₂) List.forall₂_cons.symm

theorem pkgMod_module {p : GoPackage} {gm : GoModuleRec}
    (h : pkgMod p = some gm) : p.module = some gm := by
  unfold pkgMod at h
  by_cases hb : isBuiltin p.pkgPath
  · rw [if_pos hb] at h
    cases h
  · rw [if_neg hb] at h
    exact h

theorem pkgEquiv_pkgMod {a b : GoPackage} (h : PkgEquiv a b) :
    pkgMod a = pkgMod b := by
  unfold pkgMod
  rw [h.2.1, h.2.2.1]

theorem forall₂_filterMap_pkgMod {g₁ g₂ : List GoPackage}
    (h : List.Forall₂ PkgEquiv g₁ g₂) :
    g₁.filterMap pkgMod = g₂.filterMap pkgMod := by
  induction h with
  | nil => rfl
  | cons hab htail ihh =>
    rw [List.filterMap_cons, List.filterMap_cons, pkgEquiv_pkgMod hab, ihh]

theorem addsFor_perm_of_forall₂ {g₁ g₂ : List GoPackage}
    (h : List.Forall₂ PkgEquiv g₁ g₂) (mp : Path) :
    List.Perm (addsFor g₁ mp) (addsFor g₂ mp) := by
  induction h with
  | nil => exact List.Perm.refl _
  | cons hab htail ihh =>
    rw [addsFor_cons, addsFor_cons]
    refine List.Perm.append ?_ ihh
    unfold pkgContrib
    rw [pkgEquiv_pkgMod hab]
    cases hx : pkgMod _ with
    | none => exact List.Perm.refl _
    | some gm =>
      dsimp only
      by_cases hgp : gm.path = mp
      · simp only [if_pos hgp]
        exact List.Perm.filterMap _ hab.2.2.2.1
      · simp only [if_neg hgp]
        exact List.Perm.refl _

theorem addsFor_perm_of_perm {g₁ g₂ : List GoPackage} (h : List.Perm g₁ g₂)
    (mp : Path) : List.Perm (addsFor g₁ mp) (addsFor g₂ mp) :=
  (h.map (pkgContrib mp)).flatten

theorem runEquiv_of_walks {g₁ gmid g₂ : List GoPackage} {reg₁ reg₂ : Registry}
    (hcons : ModConsistent g₁)
    (hperm : List.Perm g₁ gmid) (hf : List.Forall₂ PkgEquiv gmid g₂)
    (h₁ : walk [] g₁ = .ok reg₁) (h₂ : walk [] g₂ = .ok reg₂) :
    RunEquiv reg₁ reg₂ := by
  obtain ⟨hnd₁, hmem₁, hkey₁⟩ := walk_characterizes h₁
  obtain ⟨hnd₂, hmem₂, hkey₂⟩ := walk_characterizes h₂
  have hextperm : List.Perm (g₁.filterMap pkgMod) (g₂.filterMap pkgMod) := by
    have h' := hperm.filterMap pkgMod
    rw [forall₂_filterMap_pkgMod hf] at h'
    exact h'
  have haddsperm : ∀ mp, List.Perm (addsFor g₁ mp) (addsFor g₂ mp) :=
    fun mp => (addsFor_perm_of_perm hperm mp).trans (addsFor_perm_of_forall₂ hf mp)
  have hmemiff : ∀ mp, mp ∈ reg₁.map Module.path ↔ mp ∈ reg₂.map Module.path := by
    intro mp
    rw [← regLookup_isSome_iff_mem, ← regLookup_isSome_iff_mem, hmem₁ mp, hmem₂ mp]
    constructor
    · rintro ⟨gm, hgm, hp⟩
      exact ⟨gm, hextperm.subset hgm, hp⟩
    · rintro ⟨gm, hgm, hp⟩
      exact ⟨gm, hextperm.symm.subset hgm, hp⟩
  refine ⟨(List.perm_ext_iff_of_nodup hnd₁ hnd₂).mpr hmemiff, fun mp hmp => ?_⟩
  have hs₁ : (regLookup reg₁ mp).isSome = true := (regLookup_isSome_iff_mem _ _).mpr hmp
  have hs₂ : (regLookup reg₂ mp).isSome = true :=
    (regLookup_isSome_iff_mem _ _).mpr ((hmemiff mp).mp hmp)
  obtain ⟨m₁, hm₁⟩ := Option.isSome_iff_exists.mp hs₁
  obtain ⟨m₂, hm₂⟩ := Option.isSome_iff_exists.mp hs₂
  rw [hm₁, hm₂]
  show DataEquiv m₁ m₂
  obtain ⟨⟨gm₁, hgm₁, hgm₁p, hsc₁⟩, hwf₁, hpr₁⟩ := hkey₁ mp m₁ hm₁
  obtain ⟨⟨gm₂, hgm₂, hgm₂p, hsc₂⟩, hwf₂, hpr₂⟩ := hkey₂ mp m₂ hm₂
  have hgmeq : gm₁ = gm₂ := by
    obtain ⟨p₁, hp₁, hp₁m⟩ := List.mem_filterMap.mp hgm₁
    obtain ⟨p₂, hp₂, hp₂m⟩ := List.mem_filterMap.mp (hextperm.symm.subset hgm₂)
    have hc := hcons p₁ hp₁ p₂ hp₂
    rw [pkgMod_module hp₁m, pkgMod_module hp₂m] at hc
    exact hc (hgm₁p.trans hgm₂p.symm)
  have hpairperm : List.Perm (pairsOf m₁.deps) (pairsOf m₂.deps) := by
    refine (List.perm_ext_iff_of_nodup (pairsOf_nodup_of_WF hwf₁)
      (pairsOf_nodup_of_WF hwf₂)).mpr (fun pr => ?_)
    rw [hpr₁ pr, hpr₂ pr]
    exact (haddsperm mp).mem_iff
  refine ⟨(regLookup_path hm₁).trans (regLookup_path hm₂).symm, ?_, ?_, ?_, ?_⟩
  · rw [hsc₁.2.1, hsc₂.2.1, hgmeq]
  · rw [hsc₁.2.2.1, hsc₂.2.2.1, hgmeq]
  · rw [hsc₁.2.2.2, hsc₂.2.2.2, hgmeq]
  · rw [← pairsOf_snd, ← pairsOf_snd]
    exact hpairperm.map Prod.snd

/-- Claim C1: the externally observable output is a pure function of the
package graph.  For any two complete runs over an identical graph — the
second traversing the packages in any permuted order and reading every
package's import map in any permuted order — the final registries hold the
same modules (`RunEquiv`) and the runs emit byte-identical descriptor
files in the same sequence; moreover modules are emitted in ascending
lexicographic `Path` order and every descriptor's dependency list is
lexicographically sorted. -/
theorem deterministic_output :
    (∀ (hash : String → String) (g₁ gmid g₂ : List GoPackage)
        (reg₁ reg₂ : Registry),
        ModConsistent g₁ →
        List.Perm g₁ gmid → List.Forall₂ PkgEquiv gmid g₂ →
        walk [] g₁ = .ok reg₁ → walk [] g₂ = .ok reg₂ →
        RunEquiv reg₁ reg₂ ∧ emitAll hash reg₁ = emitAll hash reg₂)
    ∧ (∀ reg : Registry, (sortPaths (reg.map Module.path)).Sorted (· ≤ ·))
    ∧ (∀ m : Module, m.Imports.Sorted (· ≤ ·)) := by
  refine ⟨?_, fun reg => sortPaths_sorted _, fun m => sortPaths_sorted _⟩
  intro hash g₁ gmid g₂ reg₁ reg₂ hcons hperm hf h₁ h₂
  have hre := runEquiv_of_walks hcons hperm hf h₁ h₂
  exact ⟨hre, emitAll_congr hash reg₁ reg₂ hre⟩

theorem deterministic_output_witness :
    RunEquiv
        [⟨"n.example", "1.0.0", "/src/n", "", []⟩,
         ⟨"m.example", "2.0.0", "/src/m", "",
            [("n.example", ["n.example/x", "n.example/y"])]⟩]
        [⟨"n.example", "1.0.0", "/src/n", "", []⟩,
         ⟨"m.example", "2.0.0", "/src/m", "",
            [("n.example", ["n.example/y", "n.example/x"])]⟩]
    ∧ emitAll (fun d => "digest" ++ d)
        [⟨"n.example", "1.0.0", "/src/n", "", []⟩,
         ⟨"m.example", "2.0.0", "/src/m", "",
            [("n.example", ["n.example/x", "n.example/y"])]⟩]
      = emitAll (fun d => "digest" ++ d)
        [⟨"n.example", "1.0.0", "/src/n", "", []⟩,
         ⟨"m.example", "2.0.0", "/src/m", "",
            [("n.example", ["n.example/y", "n.example/x"])]⟩] :=
  deterministic_output.1 (fun d => "digest" ++ d)
    [⟨"n", "n.example/x", some ⟨"n.example", "v1.0.0", "/src/n", none⟩, [], []⟩,
     ⟨"a", "m.example/a", some ⟨"m.example", "v2.0.0", "/src/m", none⟩,
       [⟨"n.example/x", some ⟨"n.example", "v1.0.0", "/src/n", none⟩⟩, ⟨"fmt", none⟩], []⟩,
     ⟨"b", "m.example/b", some ⟨"m.example", "v2.0.0", "/src/m", none⟩,
       [⟨"n.example/y", some ⟨"n.example", "v1.0.0", "/src/n", none⟩⟩], []⟩]
    [⟨"n", "n.example/x", some ⟨"n.example", "v1.0.0", "/src/n", none⟩, [], []⟩,
     ⟨"b", "m.example/b", some ⟨"m.example", "v2.0.0", "/src/m", none⟩,
       [⟨"n.example/y", some ⟨"n.example", "v1.0.0", "/src/n", none⟩⟩], []⟩,
     ⟨"a", "m.example/a", some ⟨"m.example", "v2.0.0", "/src/m", none⟩,
       [⟨"n.example/x", some ⟨"n.example", "v1.0.0", "/src/n", none⟩⟩, ⟨"fmt", none⟩], []⟩]
    [⟨"n", "n.example/x", some ⟨"n.example", "v1.0.0", "/src/n", none⟩, [], []⟩,
     ⟨"b", "m.example/b", some ⟨"m.example", "v2.0.0", "/src/m", none⟩,
       [⟨"n.example/y", some ⟨"n.example", "v1.0.0", "/src/n", none⟩⟩], []⟩,
     ⟨"a", "m.example/a", some ⟨"m.example", "v2.0.0", "/src/m", none⟩,
       [⟨"fmt", none⟩, ⟨"n.example/x", some ⟨"n.example", "v1.0.0", "/src/n", none⟩⟩], []⟩]
    [⟨"n.example", "1.0.0", "/src/n", "", []⟩,
     ⟨"m.example", "2.0.0", "/src/m", "",
        [("n.example", ["n.example/x", "n.example/y"])]⟩]
    [⟨"n.example", "1.0.0", "/src/n", "", []⟩,
     ⟨"m.example", "2.0.0", "/src/m", "",
        [("n.example", ["n.example/y", "n.example/x"])]⟩]
    (by decide) (by decide) (by decide) (by decide) (by decide)

end Mud
